import Mathlib

/-!
Shallow embedding of the ISCOL 2025 registration-analysis scripts
(analyze_registration.py and generate_posters.py), together with
theorems about the affiliation normalizer `normalize_company_name`
and the HTML escaping of the poster-page generator.

Python strings are modelled as `List Char`; the Python text operations
(`strip`, `lower`, `title`, `split`, substring tests, the e-mail
regular expression) are modelled character by character over ASCII,
with the case model additionally covering the two compatibility
letters dotless i (U+0131) and long s (U+017F), whose CPython case
mappings land in ASCII and affect the duplicate behaviour of the
normalizer.  A missing (NaN) field is modelled as `none : Option String`.
-/

namespace Iscol

/-- ASCII uppercase letter test (characters `A`-`Z`). -/
def isUpperChar (c : Char) : Bool := 65 ≤ c.toNat && c.toNat ≤ 90

/-- ASCII lowercase letter test (characters `a`-`z`). -/
def isLowerChar (c : Char) : Bool := 97 ≤ c.toNat && c.toNat ≤ 122

/-- Test for a Python "cased character", modelled over ASCII letters
plus the two compatibility lowercase letters dotless i (U+0131) and
long s (U+017F), whose CPython case mappings leave the ASCII range:
the full Unicode case table (with one-to-many mappings such as sharp s)
is outside this character-by-character model. -/
def isCasedChar (c : Char) : Bool :=
  isUpperChar c || isLowerChar c || c == 'ı' || c == 'ſ'

/-- Model of Python `str.lower` on one character, exact on ASCII and on
the two modelled compatibility letters (both are their own lowercase). -/
def pyLowerChar (c : Char) : Char :=
  if isUpperChar c then Char.ofNat (c.toNat + 32) else c

/-- Model of Python `str.upper` on one character, exact on ASCII and on
the two modelled compatibility letters: CPython maps dotless i to the
ASCII `I` and long s to the ASCII `S`. -/
def pyUpperChar (c : Char) : Char :=
  if isLowerChar c then Char.ofNat (c.toNat - 32)
  else if c = 'ı' then 'I'
  else if c = 'ſ' then 'S'
  else c

/-- The ASCII whitespace removed by Python `str.strip()`. -/
def isPySpace (c : Char) : Bool :=
  c = ' ' || c = '\t' || c = '\n' || c = '\r' || c = '\x0b' || c = '\x0c'

/-- Python `s.strip()`: remove leading and trailing whitespace. -/
def pyStrip (l : List Char) : List Char :=
  ((l.dropWhile isPySpace).reverse.dropWhile isPySpace).reverse

/-- The value built at line 25 of analyze_registration.py:
`str(company).strip().lower()`. -/
def lowerStripped (raw : String) : List Char :=
  (pyStrip raw.data).map pyLowerChar

/-- One pass of Python `str.title`: `prev` records whether the previous
character was cased; the first character of each cased run is uppercased
and the following cased characters are lowercased. -/
def titleAux : Bool → List Char → List Char
  | _, [] => []
  | prev, c :: rest =>
    if isCasedChar c then
      (if prev then pyLowerChar c else pyUpperChar c) :: titleAux true rest
    else
      c :: titleAux false rest

/-- Model of Python `str.title` (the unmatched-fragment fallback of
line 102 of analyze_registration.py); exact on ASCII text and on the
two modelled compatibility letters, which CPython titlecases into
ASCII (`ıntel`.title() is `Intel`). -/
def pyTitle (l : List Char) : List Char := titleAux false l

/-- A string containing no ASCII uppercase letter; every fragment seen
by the matching loop has this shape, because the whole value was
lowercased at line 25. -/
def noUpper (l : List Char) : Prop := ∀ c ∈ l, isUpperChar c = false

/-- A string of ASCII characters only.  On this domain the case model
(`pyLowerChar`, `pyUpperChar`, `pyTitle`) agrees with CPython exactly,
so theorems restricted to it transfer to the program verbatim. -/
abbrev asciiOnly (l : List Char) : Prop := ∀ c ∈ l, c.toNat < 128

/-- An input whose string, when present, is ASCII only. -/
abbrev asciiInput : Option String → Prop
  | none => True
  | some raw => asciiOnly raw.data

/-- Python `s.split(sep)` for a non-empty separator `a :: sep`, with
explicit fuel; splitting is on leftmost, non-overlapping occurrences,
as in Python.  The fuel `s.length + 1` used by `pySplit` always
suffices, and for smaller fuel the function degrades to `[s]`. -/
def splitFuel (a : Char) (sep : List Char) : Nat → List Char → List (List Char)
  | 0, s => [s]
  | _ + 1, [] => [[]]
  | fuel + 1, c :: rest =>
    if (a :: sep).isPrefixOf (c :: rest) then
      [] :: splitFuel a sep fuel (rest.drop sep.length)
    else
      match splitFuel a sep fuel rest with
      | [] => [[c]]
      | p :: ps => (c :: p) :: ps

/-- Python `s.split(sep)` for the non-empty separator `a :: sep`. -/
def pySplit (a : Char) (sep : List Char) (s : List Char) : List (List Char) :=
  splitFuel a sep (s.length + 1) s

/-- The character class `[\w\.-]` of the e-mail regular expression,
with `\w` modelled as ASCII alphanumeric or underscore. -/
def isWordChar (c : Char) : Bool :=
  isUpperChar c || isLowerChar c || (48 ≤ c.toNat && c.toNat ≤ 57) || c = '_'

/-- A character matched by `[\w\.-]`. -/
def isWordDotDash (c : Char) : Bool := isWordChar c || c = '.' || c = '-'

/-- The domain part `[\w\.-]+\.\w+$` of the e-mail regular expression:
a non-empty trailing run of word characters, preceded by a dot, preceded
by a non-empty `[\w\.-]+` prefix. -/
def domainOk (b : List Char) : Bool :=
  let r := b.reverse
  let d := r.takeWhile isWordChar
  !d.isEmpty &&
    match r.drop d.length with
    | '.' :: rest => !rest.isEmpty && rest.all isWordDotDash
    | _ => false

/-- Model of `re.match(r'^[\w\.-]+@[\w\.-]+\.\w+$', s)` succeeding
(line 28 of analyze_registration.py): the pattern forbids `@` inside
the character classes, so it matches exactly when splitting on `@`
yields two parts, a local part of `[\w\.-]+` and a domain part of
`[\w\.-]+\.\w+`. -/
def isEmailLike (s : List Char) : Bool :=
  match pySplit '@' [] s with
  | [a, b] => (!a.isEmpty && a.all isWordDotDash) && domainOk b
  | _ => false

/-- The guard at line 28: `'@' in company and re.match(...)`. -/
def emailCond (c : List Char) : Bool := c.contains '@' && isEmailLike c

/-- The domain extraction at line 30: `company.split('@')[1]`. -/
def pyDomain (c : List Char) : List Char := (pySplit '@' [] c).getD 1 []

/-- Lines 27-31: an e-mail address is replaced by its domain. -/
def emailAdjusted (c : List Char) : List Char :=
  if emailCond c then pyDomain c else c

/-- The alias table `mappings` of `normalize_company_name`
(lines 34-68 of analyze_registration.py), in insertion order. -/
def mappings : List (String × List String) := [
  ("ai2", ["ai2"]),
  ("AI21", ["ai21", "ai21 labs"]),
  ("Amazon", ["amazon"]),
  ("Ariel University", ["ariel", "ariel university"]),
  ("Bar Ilan University", ["bar ilan", "bar-ilan", "biu", "bar ilan university", "bar-ilan university",
                           "bar illan university", "bar ilan /"]),
  ("Ben Gurion University", ["ben gurion", "ben-gurion", "bgu", "ben gurion university",
                             "ben-gurion university", "ben gurion university of the negev"]),
  ("Bold", ["bold", "bold.ai", "bold ai"]),
  ("Dicta", ["dicta", "dicta: israel center for text analysis"]),
  ("GE Healthcare", ["ge healthcare", "ge health"]),
  ("Genesys", ["genesys"]),
  ("Gong", ["gong", "gong io", "gong.io"]),
  ("Google", ["google", "google research"]),
  ("Hebrew University", ["hebrew university", "huji", "the hebrew university",
                         "the hebrew university of jerusalem", "hebrew university of jerusalem"]),
  ("IBM", ["ibm", "ibm r", "ibm research", "ibm resaerch", "ibm research - isrl"]),
  ("IDF", ["idf"]),
  ("Intel", ["intel"]),
  ("Microsoft", ["microsoft"]),
  ("Nexxen", ["nexxen"]),
  ("OriginAI", ["originai"]),
  ("Reichman University", ["reichman", "reichman university", "reichmann university"]),
  ("Rival Security", ["rival security", "rival"]),
  ("Salesforce", ["salesforce", "salesforce.com"]),
  ("Second Nature", ["second nature", "second nature ai"]),
  ("Sheba AI Center", ["sheba", "sheba ai center", "sheba medical center", "arc sheba ai center"]),
  ("Technion", ["technion", "technion - israel institute of technology",
                "technion- israel institute for technology"]),
  ("Tel Aviv University", ["tau", "tel aviv university", "tel aviv university "]),
  ("Walmart", ["walmart", "walmart (aspectiva)", "walmart aspectiva"]),
  ("Weizmann Institute", ["weizmann", "weizmann institute", "weizmann institute of science"]),
  ("Wix", ["wix", "wix.com"])]

/-- The canonical names: the keys of the alias table. -/
def aliasKeys : List String := mappings.map Prod.fst

/-- Model of the Python substring test `needle in hay`. -/
def isSubstr (needle : List Char) : List Char → Bool
  | [] => needle.isEmpty
  | c :: rest => needle.isPrefixOf (c :: rest) || isSubstr needle rest

/-- The bidirectional substring test of line 92:
`variation in part or part in variation`. -/
def variationMatches (part : List Char) (v : String) : Bool :=
  isSubstr v.data part || isSubstr part v.data

/-- Lines 88-98: scan the table in order and return the first canonical
name one of whose variations matches the fragment (the nested loop with
the `matched` flag and the two `break` statements). -/
def firstMatch : List (String × List String) → List Char → Option String
  | [], _ => none
  | (canonical, variations) :: rest, part =>
    if variations.any (variationMatches part) then some canonical
    else firstMatch rest part

/-- The delimiter list `[',', '/', ' and ', '&']` of line 73, each
separator given as head character plus tail so that it is never empty. -/
def separators : List (Char × List Char) :=
  [(',', []), ('/', []), (' ', ['a', 'n', 'd', ' ']), ('&', [])]

/-- Lines 72-76: the first delimiter contained in the value wins; the
value is split on it and every part is stripped. An empty result means
no delimiter occurred. -/
def pickParts : List (Char × List Char) → List Char → List (List Char)
  | [], _ => []
  | (a, sep) :: rest, c =>
    if isSubstr (a :: sep) c then (pySplit a sep c).map pyStrip
    else pickParts rest c

/-- Lines 72-79: the candidate fragments (the whole value when no
delimiter occurs). -/
def fragmentsOf (c : List Char) : List (List Char) :=
  match pickParts separators c with
  | [] => [c]
  | ps => ps

/-- Lines 82-102: strip each fragment, skip empty ones, append the first
matching canonical name (if not already present) or the title-cased
fragment, accumulating into `normalized`. -/
def normLoop (tbl : List (String × List String)) :
    List (List Char) → List String → List String
  | [], acc => acc
  | part :: rest, acc =>
    if (pyStrip part).isEmpty then normLoop tbl rest acc
    else
      match firstMatch tbl (pyStrip part) with
      | some canonical =>
          normLoop tbl rest (if canonical ∈ acc then acc else acc ++ [canonical])
      | none => normLoop tbl rest (acc ++ [⟨pyTitle (pyStrip part)⟩])

/-- Lines 70-104 after the e-mail adjustment: split into fragments,
normalize them, and apply the final fallback of line 104
(`normalized if normalized else ['Not specified']`). -/
def finishFrom (tbl : List (String × List String)) (c : List Char) : List String :=
  match normLoop tbl (fragmentsOf c) [] with
  | [] => ["Not specified"]
  | res => res

/-- `normalize_company_name` with the alias table as an explicit
parameter; the table is the only non-local data the function reads. -/
def normalizeWith (tbl : List (String × List String)) (company : Option String) :
    List String :=
  match company with
  | none => ["Not specified"]
  | some raw =>
    if raw = "-" then ["Not specified"]
    else finishFrom tbl (emailAdjusted (lowerStripped raw))

/-- `normalize_company_name` (lines 18-104 of analyze_registration.py);
`none` models a missing (NaN) value. -/
def normalize_company_name (company : Option String) : List String :=
  normalizeWith mappings company

/-- Lines 27-31 with the list indexing `company.split('@')[1]` made
explicit: a `none` result would signal an IndexError. -/
def emailAdjustedChecked (c : List Char) : Option (List Char) :=
  if emailCond c then (pySplit '@' [] c)[1]? else some c

/-- `normalize_company_name` with its single partial operation (the
list indexing of line 30) threaded through `Option`. -/
def normalizeChecked (company : Option String) : Option (List String) :=
  match company with
  | none => some ["Not specified"]
  | some raw =>
    if raw = "-" then some ["Not specified"]
    else (emailAdjustedChecked (lowerStripped raw)).map (finishFrom mappings)

/-- One row of the batch mapping at line 143 of analyze_registration.py:
the invocation returns its result and hands the table back unchanged. -/
def applyRow (tbl : List (String × List String)) (row : Option String) :
    List String × List (String × List String) :=
  (normalizeWith tbl row, tbl)

/-- The row-wise mapping over the dataset, threading the alias-table
state through every invocation. -/
def runBatch (tbl : List (String × List String)) :
    List (Option String) → List (List String) × List (String × List String)
  | [] => ([], tbl)
  | row :: rows =>
    let step := applyRow tbl row
    let rest := runBatch step.2 rows
    (step.1 :: rest.1, rest.2)

/-- Python `s.replace(pat, rep)` for a one-character pattern; lines
120-121 of generate_posters.py use only one-character patterns. -/
def pyReplaceChar (pat : Char) (rep : List Char) : List Char → List Char
  | [] => []
  | c :: rest =>
    if c = pat then rep ++ pyReplaceChar pat rep rest
    else c :: pyReplaceChar pat rep rest

/-- Lines 120-121 of generate_posters.py:
`.replace('&', '&amp;').replace('<', '&lt;').replace('>', '&gt;')`. -/
def escapeHtml (s : List Char) : List Char :=
  pyReplaceChar '>' "&gt;".data
    (pyReplaceChar '<' "&lt;".data
      (pyReplaceChar '&' "&amp;".data s))

/-- Lines 123-127 of generate_posters.py: the HTML emitted for one
poster row, with title and authors escaped. -/
def posterItemHtml (title authors : List Char) : List Char :=
  "            <div class=\"poster-item\">\n              <div class=\"poster-title\">".data
    ++ escapeHtml title
    ++ "</div>\n              <div class=\"poster-authors\">".data
    ++ escapeHtml authors
    ++ "</div>\n            </div>\n".data

/-- The poster loop of lines 118-127: one item per CSV row. -/
def postersListHtml (posters : List (List Char × List Char)) : List Char :=
  (posters.map fun p => posterItemHtml p.1 p.2).flatten

/-- `Char.ofNat` is left inverse to `Char.toNat` on valid code points. -/
theorem toNat_ofNat_valid {n : Nat} (h : n < 55296) : (Char.ofNat n).toNat = n := by
  rw [Char.ofNat, dif_pos (Or.inl h)]
  rfl

/-- Lowercasing never produces an ASCII uppercase letter. -/
theorem isUpperChar_pyLowerChar (c : Char) : isUpperChar (pyLowerChar c) = false := by
  unfold pyLowerChar
  cases h : isUpperChar c with
  | false => simp [h]
  | true =>
    have hc : 65 ≤ c.toNat ∧ c.toNat ≤ 90 := by
      have h2 := h
      unfold isUpperChar at h2
      simpa [Bool.and_eq_true, decide_eq_true_eq] using h2
    simp only [if_true]
    unfold isUpperChar
    rw [toNat_ofNat_valid (show c.toNat + 32 < 55296 by omega)]
    have h2 : decide (c.toNat + 32 ≤ 90) = false := by
      simp only [decide_eq_false_iff_not]
      omega
    simp only [h2, Bool.and_false]

/-- Lowercasing fixes a character that is not ASCII uppercase. -/
theorem pyLowerChar_eq_of_not_upper {c : Char} (h : isUpperChar c = false) :
    pyLowerChar c = c := by
  simp [pyLowerChar, h]

/-- Lowercasing undoes uppercasing on an ASCII lowercase letter. -/
theorem pyLower_pyUpper {c : Char} (h : isLowerChar c = true) :
    pyLowerChar (pyUpperChar c) = c := by
  have hc : 97 ≤ c.toNat ∧ c.toNat ≤ 122 := by
    have h2 := h
    unfold isLowerChar at h2
    simpa [Bool.and_eq_true, decide_eq_true_eq] using h2
  unfold pyUpperChar
  rw [if_pos h]
  unfold pyLowerChar
  have ht : (Char.ofNat (c.toNat - 32)).toNat = c.toNat - 32 :=
    toNat_ofNat_valid (by omega)
  have hu : isUpperChar (Char.ofNat (c.toNat - 32)) = true := by
    unfold isUpperChar
    rw [ht]
    simp only [Bool.and_eq_true, decide_eq_true_eq]
    omega
  rw [if_pos hu, ht]
  have h32 : c.toNat - 32 + 32 = c.toNat := by omega
  rw [h32, Char.ofNat_toNat]

/-- The image of `pyLowerChar` over any string has no uppercase letter. -/
theorem noUpper_map_lower (l : List Char) : noUpper (l.map pyLowerChar) := by
  intro c hc
  obtain ⟨d, _, rfl⟩ := List.mem_map.1 hc
  exact isUpperChar_pyLowerChar d

/-- Stripping only removes characters. -/
theorem mem_of_mem_pyStrip {x : Char} {l : List Char} (h : x ∈ pyStrip l) : x ∈ l := by
  unfold pyStrip at h
  rw [List.mem_reverse] at h
  have h2 := (List.dropWhile_sublist _).subset h
  rw [List.mem_reverse] at h2
  exact (List.dropWhile_sublist _).subset h2

/-- Stripping preserves the absence of uppercase letters. -/
theorem noUpper_pyStrip {l : List Char} (h : noUpper l) : noUpper (pyStrip l) :=
  fun c hc => h c (mem_of_mem_pyStrip hc)

/-- Splitting only redistributes characters of the input. -/
theorem mem_of_mem_splitFuel {a : Char} {sep : List Char} :
    ∀ {fuel s p x}, p ∈ splitFuel a sep fuel s → x ∈ p → x ∈ s := by
  intro fuel
  induction fuel with
  | zero =>
    intro s p x hp hx
    simp only [splitFuel, List.mem_singleton] at hp
    exact hp ▸ hx
  | succ n ih =>
    intro s p x hp hx
    cases s with
    | nil =>
      simp only [splitFuel, List.mem_singleton] at hp
      subst hp
      simp at hx
    | cons c rest =>
      simp only [splitFuel] at hp
      by_cases h : (a :: sep).isPrefixOf (c :: rest) = true
      · rw [if_pos h] at hp
        rcases List.mem_cons.1 hp with h1 | h1
        · subst h1
          simp at hx
        · have hr := ih h1 hx
          exact List.mem_cons_of_mem c ((List.drop_sublist _ _).subset hr)
      · rw [if_neg h] at hp
        rcases hsp : splitFuel a sep n rest with _ | ⟨q, qs⟩
        · rw [hsp] at hp
          simp only [List.mem_singleton] at hp
          subst hp
          simp only [List.mem_singleton] at hx
          subst hx
          exact List.mem_cons_self _ _
        · rw [hsp] at hp
          rcases List.mem_cons.1 hp with h1 | h1
          · subst h1
            rcases List.mem_cons.1 hx with h2 | h2
            · subst h2
              exact List.mem_cons_self _ _
            · have hq : q ∈ splitFuel a sep n rest := by
                rw [hsp]
                exact List.mem_cons_self _ _
              exact List.mem_cons_of_mem c (ih hq h2)
          · have hq : p ∈ splitFuel a sep n rest := by
              rw [hsp]
              exact List.mem_cons_of_mem q h1
            exact List.mem_cons_of_mem c (ih hq hx)

/-- Splitting always yields at least one part. -/
theorem splitFuel_ne_nil (a : Char) (sep : List Char) :
    ∀ fuel s, splitFuel a sep fuel s ≠ [] := by
  intro fuel s
  match fuel, s with
  | 0, s => simp [splitFuel]
  | n + 1, [] => simp [splitFuel]
  | n + 1, c :: rest =>
    simp only [splitFuel]
    split
    · simp
    · split <;> simp

/-- Lowercasing keeps a character inside the ASCII range. -/
theorem pyLowerChar_ascii {c : Char} (h : c.toNat < 128) : (pyLowerChar c).toNat < 128 := by
  unfold pyLowerChar
  cases hu : isUpperChar c with
  | false => simpa using h
  | true =>
    have hc : 65 ≤ c.toNat ∧ c.toNat ≤ 90 := by
      have h2 := hu
      unfold isUpperChar at h2
      simpa [Bool.and_eq_true, decide_eq_true_eq] using h2
    simp only [if_true]
    rw [toNat_ofNat_valid (by omega)]
    omega

/-- Title-casing an ASCII string without uppercase letters is undone by
lowercasing again (character-for-character).  The ASCII restriction is
essential: title-casing maps the modelled non-ASCII letters into ASCII
(`ı` becomes `I`), which lowercases to a different character. -/
theorem map_pyLower_titleAux :
    ∀ {l : List Char}, asciiOnly l → noUpper l → ∀ prev,
      (titleAux prev l).map pyLowerChar = l := by
  intro l
  induction l with
  | nil => intro _ _ prev; rfl
  | cons c rest ih =>
    intro ha h prev
    have hc : isUpperChar c = false := h c (List.mem_cons_self _ _)
    have hac : c.toNat < 128 := ha c (List.mem_cons_self _ _)
    have hrest : noUpper rest := fun d hd => h d (List.mem_cons_of_mem c hd)
    have harest : asciiOnly rest := fun d hd => ha d (List.mem_cons_of_mem c hd)
    simp only [titleAux]
    by_cases hcase : isCasedChar c = true
    · rw [if_pos hcase]
      have hl : isLowerChar c = true := by
        have h2 := hcase
        unfold isCasedChar at h2
        rw [hc] at h2
        simp only [Bool.false_or, Bool.or_eq_true, beq_iff_eq] at h2
        rcases h2 with (h2 | h2) | h2
        · exact h2
        · subst h2
          exact absurd hac (by decide)
        · subst h2
          exact absurd hac (by decide)
      cases prev with
      | true =>
        simp only [if_pos, List.map_cons, ih harest hrest true]
        rw [pyLowerChar_eq_of_not_upper hc, pyLowerChar_eq_of_not_upper hc]
      | false =>
        simp only [Bool.false_eq_true, if_false, List.map_cons, ih harest hrest true]
        rw [pyLower_pyUpper hl]
    · rw [if_neg hcase]
      simp only [List.map_cons, ih harest hrest false]
      rw [pyLowerChar_eq_of_not_upper hc]

/-- Title-casing never empties a non-empty string. -/
theorem titleAux_ne_nil {prev : Bool} {c : Char} {rest : List Char} :
    titleAux prev (c :: rest) ≠ [] := by
  simp only [titleAux]
  split <;> simp

/-- The matching loop of lines 88-98 returns the first table entry, in
insertion order, one of whose variations passes the bidirectional
substring test. -/
theorem firstMatch_eq_find (tbl : List (String × List String)) (part : List Char) :
    firstMatch tbl part =
      (tbl.find? (fun e => e.2.any (variationMatches part))).map Prod.fst := by
  induction tbl with
  | nil => rfl
  | cons e rest ih =>
    obtain ⟨canonical, variations⟩ := e
    cases h : variations.any (variationMatches part) with
    | true => simp [firstMatch, List.find?_cons, h]
    | false => simp [firstMatch, List.find?_cons, h, ih]

/-- A matched canonical name is a key of the table. -/
theorem firstMatch_mem {tbl : List (String × List String)} {part : List Char}
    {c : String} (h : firstMatch tbl part = some c) : c ∈ tbl.map Prod.fst := by
  induction tbl with
  | nil => simp [firstMatch] at h
  | cons e rest ih =>
    obtain ⟨canonical, variations⟩ := e
    simp only [firstMatch] at h
    cases hm : variations.any (variationMatches part) with
    | true =>
      rw [hm] at h
      simp only [if_true] at h
      simp only [Option.some.injEq] at h
      subst h
      exact List.mem_cons_self _ _
    | false =>
      rw [hm] at h
      simp only [Bool.false_eq_true, if_false] at h
      exact List.mem_cons_of_mem _ (ih h)

/-- The delimiter loop of lines 72-76 splits on the first delimiter, in
list order, contained in the value. -/
theorem pickParts_eq_find (seps : List (Char × List Char)) (c : List Char) :
    pickParts seps c =
      match seps.find? (fun sp => isSubstr (sp.1 :: sp.2) c) with
      | some sp => (pySplit sp.1 sp.2 c).map pyStrip
      | none => [] := by
  induction seps with
  | nil => rfl
  | cons sp rest ih =>
    obtain ⟨a, sep⟩ := sp
    cases h : isSubstr (a :: sep) c with
    | true => simp [pickParts, List.find?_cons, h]
    | false => simp [pickParts, List.find?_cons, h, ih]

/-- The extracted domain only contains characters of the input. -/
theorem mem_of_mem_pyDomain {c : List Char} {x : Char} (h : x ∈ pyDomain c) : x ∈ c := by
  unfold pyDomain at h
  rw [List.getD_eq_getElem?_getD] at h
  cases h2 : (pySplit '@' [] c)[1]? with
  | none =>
    rw [h2] at h
    simp at h
  | some v =>
    rw [h2] at h
    simp only [Option.getD_some] at h
    exact mem_of_mem_splitFuel (List.getElem?_mem h2) h

/-- Delimiter splitting only redistributes characters of the value. -/
theorem mem_of_mem_pickParts {seps : List (Char × List Char)} {c p : List Char}
    {x : Char} (hp : p ∈ pickParts seps c) (hx : x ∈ p) : x ∈ c := by
  induction seps with
  | nil => simp [pickParts] at hp
  | cons sp rest ih =>
    obtain ⟨a, sep⟩ := sp
    simp only [pickParts] at hp
    by_cases hs : isSubstr (a :: sep) c = true
    · rw [if_pos hs] at hp
      obtain ⟨q, hq, rfl⟩ := List.mem_map.1 hp
      exact mem_of_mem_splitFuel hq (mem_of_mem_pyStrip hx)
    · rw [if_neg hs] at hp
      exact ih hp

/-- Every character of a candidate fragment is a character of the value. -/
theorem mem_of_mem_fragments {c p : List Char} {x : Char}
    (hp : p ∈ fragmentsOf c) (hx : x ∈ p) : x ∈ c := by
  unfold fragmentsOf at hp
  cases hpk : pickParts separators c with
  | nil =>
    rw [hpk] at hp
    simp only [List.mem_singleton] at hp
    exact hp ▸ hx
  | cons q qs =>
    rw [hpk] at hp
    exact mem_of_mem_pickParts
      (show p ∈ pickParts separators c by rw [hpk]; exact hp) hx

/-- The e-mail adjustment only keeps characters of the value. -/
theorem mem_of_mem_emailAdjusted {c : List Char} {x : Char}
    (h : x ∈ emailAdjusted c) : x ∈ c := by
  unfold emailAdjusted at h
  by_cases hc : emailCond c = true
  · rw [if_pos hc] at h
    exact mem_of_mem_pyDomain h
  · rw [if_neg hc] at h
    exact h

/-- Every character of every fragment seen by the matching loop is the
lowercasing of some character of the raw field. -/
theorem fragment_chars (raw : String) :
    ∀ p ∈ fragmentsOf (emailAdjusted (lowerStripped raw)), ∀ x ∈ p,
      ∃ d ∈ raw.data, x = pyLowerChar d := by
  intro p hp x hx
  have h1 : x ∈ emailAdjusted (lowerStripped raw) := mem_of_mem_fragments hp hx
  have h2 : x ∈ lowerStripped raw := mem_of_mem_emailAdjusted h1
  unfold lowerStripped at h2
  obtain ⟨d, hd, rfl⟩ := List.mem_map.1 h2
  exact ⟨d, mem_of_mem_pyStrip hd, rfl⟩

/-- Every string accumulated by the fragment loop is non-empty, as long
as the table has no empty key. -/
theorem normLoop_ne_empty (tbl : List (String × List String))
    (hk : ∀ k ∈ tbl.map Prod.fst, k ≠ "") :
    ∀ ps acc, (∀ s ∈ acc, s ≠ "") → ∀ s ∈ normLoop tbl ps acc, s ≠ "" := by
  intro ps
  induction ps with
  | nil =>
    intro acc hacc
    exact hacc
  | cons part rest ih =>
    intro acc hacc
    simp only [normLoop]
    by_cases he : (pyStrip part).isEmpty
    · rw [if_pos he]
      exact ih acc hacc
    · rw [if_neg he]
      cases hm : firstMatch tbl (pyStrip part) with
      | some canonical =>
        apply ih
        intro s hs
        by_cases hca : canonical ∈ acc
        · rw [if_pos hca] at hs
          exact hacc s hs
        · rw [if_neg hca] at hs
          rcases List.mem_append.1 hs with h1 | h1
          · exact hacc s h1
          · simp only [List.mem_singleton] at h1
            rw [h1]
            exact hk canonical (firstMatch_mem hm)
      | none =>
        apply ih
        intro s hs
        rcases List.mem_append.1 hs with h1 | h1
        · exact hacc s h1
        · simp only [List.mem_singleton] at h1
          subst h1
          intro hcontra
          have hdata : pyTitle (pyStrip part) = [] := by
            simpa using congrArg String.data hcontra
          have hne : pyStrip part ≠ [] := by
            simpa [List.isEmpty_iff] using he
          cases hq : pyStrip part with
          | nil => exact hne hq
          | cons c cs =>
            rw [hq] at hdata
            unfold pyTitle at hdata
            exact titleAux_ne_nil hdata

/-- The fragment loop appends a canonical name at most once on ASCII
fragments: the member check of line 93 guards canonical names, and
title-casing an unmatched lowercase ASCII fragment cannot produce a
string whose lowercasing matches the table.  (On non-ASCII fragments
this fails: title-casing `ıntel` produces the canonical name Intel.) -/
theorem normLoop_count (tbl : List (String × List String)) (k : String)
    (hk : (firstMatch tbl (k.data.map pyLowerChar)).isSome = true) :
    ∀ ps acc, (∀ p ∈ ps, noUpper p ∧ asciiOnly p) → acc.count k ≤ 1 →
      (normLoop tbl ps acc).count k ≤ 1 := by
  intro ps
  induction ps with
  | nil =>
    intro acc _ hacc
    exact hacc
  | cons part rest ih =>
    intro acc hps hacc
    have hpart : noUpper part := (hps part (List.mem_cons_self _ _)).1
    have hapart : asciiOnly part := (hps part (List.mem_cons_self _ _)).2
    have hrest : ∀ p ∈ rest, noUpper p ∧ asciiOnly p :=
      fun p hp => hps p (List.mem_cons_of_mem _ hp)
    simp only [normLoop]
    by_cases he : (pyStrip part).isEmpty
    · rw [if_pos he]
      exact ih acc hrest hacc
    · rw [if_neg he]
      cases hm : firstMatch tbl (pyStrip part) with
      | some canonical =>
        apply ih _ hrest
        by_cases hca : canonical ∈ acc
        · rw [if_pos hca]
          exact hacc
        · rw [if_neg hca]
          rw [List.count_append]
          by_cases hkc : k = canonical
          · subst hkc
            have h0 : acc.count k = 0 := List.count_eq_zero.2 hca
            rw [h0]
            simp [List.count_cons]
          · have h1 : List.count k [canonical] = 0 := by
              rw [List.count_eq_zero]
              simp [hkc]
            rw [h1]
            simpa using hacc
      | none =>
        apply ih _ hrest
        rw [List.count_append]
        have hne : (⟨pyTitle (pyStrip part)⟩ : String) ≠ k := by
          intro hcontra
          have hdata : pyTitle (pyStrip part) = k.data := congrArg String.data hcontra
          have hnu : noUpper (pyStrip part) := noUpper_pyStrip hpart
          have hna : asciiOnly (pyStrip part) :=
            fun x hx => hapart x (mem_of_mem_pyStrip hx)
          have hlow : (pyTitle (pyStrip part)).map pyLowerChar = pyStrip part :=
            map_pyLower_titleAux hna hnu false
          rw [hdata] at hlow
          rw [hlow] at hk
          rw [hm] at hk
          simp at hk
        have h1 : List.count k [(⟨pyTitle (pyStrip part)⟩ : String)] = 0 := by
          rw [List.count_eq_zero]
          simp only [List.mem_singleton]
          exact fun h => hne h.symm
        rw [h1]
        simpa using hacc

/-- Replacing a character by a replacement that does not contain it
removes every occurrence of it. -/
theorem count_pyReplaceChar_eq_zero {pat : Char} {rep : List Char} (h : pat ∉ rep) :
    ∀ s, (pyReplaceChar pat rep s).count pat = 0 := by
  intro s
  induction s with
  | nil => rfl
  | cons c rest ih =>
    simp only [pyReplaceChar]
    by_cases hc : c = pat
    · rw [if_pos hc, List.count_append, ih, List.count_eq_zero.2 h]
    · have hb : (c == pat) = false := beq_eq_false_iff_ne.2 hc
      rw [if_neg hc, List.count_cons, ih, hb]
      simp

/-- Replacing one character does not change the count of a character
distinct from the pattern and absent from the replacement. -/
theorem count_pyReplaceChar_other {pat : Char} {rep : List Char} {c0 : Char}
    (hne : c0 ≠ pat) (h : c0 ∉ rep) :
    ∀ s, (pyReplaceChar pat rep s).count c0 = s.count c0 := by
  intro s
  induction s with
  | nil => rfl
  | cons c rest ih =>
    simp only [pyReplaceChar]
    by_cases hc : c = pat
    · have hb : (c == c0) = false := beq_eq_false_iff_ne.2 (fun h2 => hne (h2 ▸ hc))
      rw [if_pos hc, List.count_append, ih, List.count_eq_zero.2 h, List.count_cons, hb]
      simp
    · rw [if_neg hc, List.count_cons, List.count_cons, ih]

/-- The escaped text contains no `<` at all. -/
theorem count_escapeHtml_lt (s : List Char) : (escapeHtml s).count '<' = 0 := by
  unfold escapeHtml
  rw [count_pyReplaceChar_other (by decide) (by decide)]
  exact count_pyReplaceChar_eq_zero (by decide) _

/-- The escaped text contains no `>` at all. -/
theorem count_escapeHtml_gt (s : List Char) : (escapeHtml s).count '>' = 0 :=
  count_pyReplaceChar_eq_zero (by decide) _

/-- A successful e-mail match means the split has exactly two parts. -/
theorem isEmailLike_two_parts {c : List Char} (h : isEmailLike c = true) :
    ∃ x y, pySplit '@' [] c = [x, y] := by
  unfold isEmailLike at h
  rcases hs : pySplit '@' [] c with _ | ⟨x, _ | ⟨y, _ | ⟨z, t⟩⟩⟩
  · rw [hs] at h
    simp at h
  · rw [hs] at h
    simp at h
  · exact ⟨x, y, rfl⟩
  · rw [hs] at h
    simp at h

/-- The guarded domain extraction never fails. -/
theorem emailAdjustedChecked_eq (c : List Char) :
    emailAdjustedChecked c = some (emailAdjusted c) := by
  unfold emailAdjustedChecked emailAdjusted
  by_cases h : emailCond c = true
  · rw [if_pos h, if_pos h]
    have he : isEmailLike c = true := by
      unfold emailCond at h
      simp only [Bool.and_eq_true] at h
      exact h.2
    obtain ⟨x, y, hxy⟩ := isEmailLike_two_parts he
    unfold pyDomain
    rw [hxy]
    rfl
  · rw [if_neg h, if_neg h]

/-- Claim C2: a missing value, the empty string, and the placeholder
`-` all normalize to exactly `["Not specified"]`. -/
theorem norm_missing_placeholder :
    normalize_company_name none = ["Not specified"] ∧
    normalize_company_name (some "") = ["Not specified"] ∧
    normalize_company_name (some "-") = ["Not specified"] := by
  refine ⟨rfl, by decide, by decide⟩

/-- Claim C1, counterexample: duplicates do occur.  The ASCII input
`foo, foo` produces `["Foo", "Foo"]`, a repeated title-cased fallback
fragment; and the input `intel, ıntel` produces `["Intel", "Intel"]`,
repeating the canonical name Intel, because the unmatched fragment
`ıntel` title-cases to `Intel` and line 102 appends it with no
duplicate check. -/
theorem norm_dup_title_fragments :
    normalize_company_name (some "foo, foo") = ["Foo", "Foo"] ∧
    ¬ (normalize_company_name (some "foo, foo")).Nodup ∧
    "Intel" ∈ aliasKeys ∧
    normalize_company_name (some "intel, ıntel") = ["Intel", "Intel"] ∧
    (normalize_company_name (some "intel, ıntel")).count "Intel" = 2 := by
  refine ⟨by decide, by decide, by decide, by decide, by decide⟩

/-- Claim C1, amended: on inputs made of ASCII characters, no canonical
name of the alias table occurs twice in the output of
`normalize_company_name`, while title-cased unmatched fragments can
still repeat; on non-ASCII input even a canonical name can repeat,
since `str.title` can map an unmatched fragment onto a canonical name
(see the counterexample `intel, ıntel`). -/
theorem norm_canonical_count_le_one (company : Option String) (k : String)
    (hk : k ∈ aliasKeys) (ha : asciiInput company) :
    (normalize_company_name company).count k ≤ 1 := by
  have hall : ∀ k2 ∈ aliasKeys, (firstMatch mappings (k2.data.map pyLowerChar)).isSome = true := by
    decide
  have hsome : (firstMatch mappings (k.data.map pyLowerChar)).isSome = true := hall k hk
  unfold normalize_company_name
  cases company with
  | none => exact List.count_le_length _ _
  | some raw =>
    have haraw : asciiOnly raw.data := ha
    simp only [normalizeWith]
    by_cases hr : raw = "-"
    · rw [if_pos hr]
      exact List.count_le_length _ _
    · rw [if_neg hr]
      unfold finishFrom
      cases hres : normLoop mappings (fragmentsOf (emailAdjusted (lowerStripped raw))) [] with
      | nil => exact List.count_le_length _ _
      | cons s ss =>
        show List.count k (s :: ss) ≤ 1
        rw [← hres]
        refine normLoop_count mappings k hsome _ [] ?_ (by simp)
        intro p hp
        constructor
        · intro x hx
          obtain ⟨d, _, rfl⟩ := fragment_chars raw p hp x hx
          exact isUpperChar_pyLowerChar d
        · intro x hx
          obtain ⟨d, hd, rfl⟩ := fragment_chars raw p hp x hx
          exact pyLowerChar_ascii (haraw d hd)

/-- Witness for the amended claim C1 at a concrete ASCII input. -/
theorem norm_canonical_count_le_one_witness :
    "Google" ∈ aliasKeys ∧
    asciiInput (some "google and google research") ∧
    (normalize_company_name (some "google and google research")).count "Google" ≤ 1 :=
  ⟨by decide, by decide,
    norm_canonical_count_le_one (some "google and google research") "Google"
      (by decide) (by decide)⟩

/-- Claim C3: for every input the result is a non-empty sequence of
non-empty strings. -/
theorem norm_result_nonempty_strings (company : Option String) :
    normalize_company_name company ≠ [] ∧
    (normalize_company_name company).all (fun s => s != "") = true := by
  have hkeys : ∀ k ∈ mappings.map Prod.fst, k ≠ "" := by decide
  unfold normalize_company_name
  cases company with
  | none => exact ⟨by decide, by decide⟩
  | some raw =>
    simp only [normalizeWith]
    by_cases hr : raw = "-"
    · rw [if_pos hr]
      exact ⟨by decide, by decide⟩
    · rw [if_neg hr]
      unfold finishFrom
      cases hres : normLoop mappings (fragmentsOf (emailAdjusted (lowerStripped raw))) [] with
      | nil => exact ⟨by decide, by decide⟩
      | cons s ss =>
        refine ⟨List.cons_ne_nil s ss, ?_⟩
        rw [List.all_eq_true]
        intro x hx
        have hne : x ≠ "" := by
          refine normLoop_ne_empty mappings hkeys
            (fragmentsOf (emailAdjusted (lowerStripped raw))) [] (by simp) x ?_
          rw [hres]
          exact hx
        simpa [bne_iff_ne] using hne

/-- Claim C4: a fragment matches a canonical name exactly when the
bidirectional substring test succeeds for one of its variations, the
table is scanned in insertion order, the first match wins; and the
Technion long form maps to `["Technion"]`. -/
theorem norm_first_match_semantics :
    (∀ part : List Char,
        firstMatch mappings part =
          (mappings.find? (fun e => e.2.any (variationMatches part))).map Prod.fst) ∧
    normalize_company_name (some "Technion - Israel Institute of Technology") =
      ["Technion"] :=
  ⟨fun part => firstMatch_eq_find mappings part, by decide⟩

/-- Claim C5: the value is split on the first delimiter present, trying
comma, slash, the word and, ampersand in that order, the whole value
being one fragment when none occurs; and `Bar Ilan / Google` maps to
`["Bar Ilan University", "Google"]` in order. -/
theorem norm_split_semantics :
    (∀ c : List Char,
        fragmentsOf c =
          match separators.find? (fun sp => isSubstr (sp.1 :: sp.2) c) with
          | some sp => (pySplit sp.1 sp.2 c).map pyStrip
          | none => [c]) ∧
    normalize_company_name (some "Bar Ilan / Google") =
      ["Bar Ilan University", "Google"] := by
  constructor
  · intro c
    unfold fragmentsOf
    rw [pickParts_eq_find]
    cases hf : separators.find? (fun sp => isSubstr (sp.1 :: sp.2) c) with
    | none => rfl
    | some sp =>
      have hne : (pySplit sp.1 sp.2 c).map pyStrip ≠ [] := by
        intro hcontra
        exact splitFuel_ne_nil sp.1 sp.2 _ _ (List.map_eq_nil_iff.1 hcontra)
      show (match (pySplit sp.1 sp.2 c).map pyStrip with
            | [] => [c]
            | ps => ps) = (pySplit sp.1 sp.2 c).map pyStrip
      cases hsp2 : (pySplit sp.1 sp.2 c).map pyStrip with
      | nil => exact absurd hsp2 hne
      | cons q qs => rfl
  · decide

/-- Claim C6: when the lowercased, trimmed value passes the e-mail
pattern only its domain is used by the rest of the pipeline; and the
unmatched example address maps to `["Example.Com"]`. -/
theorem norm_email_domain (raw : String) (hne : raw ≠ "-")
    (he : emailCond (lowerStripped raw) = true) :
    normalize_company_name (some raw) =
      finishFrom mappings (pyDomain (lowerStripped raw)) ∧
    normalize_company_name (some "some-unlisted-lab@example.com") = ["Example.Com"] := by
  refine ⟨?_, by decide⟩
  unfold normalize_company_name
  simp only [normalizeWith]
  rw [if_neg hne]
  unfold emailAdjusted
  rw [if_pos he]

/-- Witness for claim C6 at a concrete input. -/
theorem norm_email_domain_witness :
    ("some-unlisted-lab@example.com" : String) ≠ "-" ∧
    emailCond (lowerStripped "some-unlisted-lab@example.com") = true ∧
    normalize_company_name (some "some-unlisted-lab@example.com") =
      finishFrom mappings (pyDomain (lowerStripped "some-unlisted-lab@example.com")) :=
  ⟨by decide, by decide,
    (norm_email_domain "some-unlisted-lab@example.com" (by decide) (by decide)).1⟩

/-- Claim C7, counterexample: `AI21` is a key of the alias table, yet
normalizing it yields `["ai2"]`, because the variation `ai2` of the
earlier key `ai2` is a substring of `ai21`. -/
theorem norm_canonical_ai21_cex :
    "AI21" ∈ aliasKeys ∧
    normalize_company_name (some "AI21") = ["ai2"] ∧
    normalize_company_name (some "AI21") ≠ ["AI21"] := by
  refine ⟨by decide, by decide, by decide⟩

/-- Claim C7, amended: every canonical name of the alias table except
`AI21` normalizes to exactly itself. -/
theorem norm_canonical_fixed_except_ai21 :
    ∀ k ∈ aliasKeys, k ≠ "AI21" → normalize_company_name (some k) = [k] := by
  decide

/-- Witness for the amended claim C7 at a concrete key. -/
theorem norm_canonical_fixed_except_ai21_witness :
    "Google" ∈ aliasKeys ∧ ("Google" : String) ≠ "AI21" ∧
    normalize_company_name (some "Google") = ["Google"] :=
  ⟨by decide, by decide, norm_canonical_fixed_except_ai21 "Google" (by decide) (by decide)⟩

/-- Claim C8: the function is total; with its single partial operation
(the indexing `split('@')[1]`) made explicit, it never fails and agrees
with the total model on every input. -/
theorem norm_total_no_failure (company : Option String) :
    normalizeChecked company = some (normalize_company_name company) := by
  cases company with
  | none => rfl
  | some raw =>
    unfold normalize_company_name
    simp only [normalizeChecked, normalizeWith]
    by_cases hr : raw = "-"
    · rw [if_pos hr, if_pos hr]
    · rw [if_neg hr, if_neg hr, emailAdjustedChecked_eq]
      rfl

/-- Claim C9: the function is pure and deterministic; a batch run that
threads the alias-table state through every invocation returns exactly
the row-wise map of the function and leaves the table unchanged. -/
theorem norm_pure_batch (tbl : List (String × List String)) (rows : List (Option String)) :
    runBatch tbl rows = (rows.map (normalizeWith tbl), tbl) := by
  induction rows with
  | nil => rfl
  | cons r rest ih => simp [runBatch, applyRow, ih]

/-- Claim C10: escaped titles and authors contain no raw angle bracket,
and the poster list rendered for any CSV rows contains exactly the six
`<` and six `>` of the fixed template per row. -/
theorem poster_html_escapes_angle_brackets :
    (∀ s : List Char, '<' ∉ escapeHtml s ∧ '>' ∉ escapeHtml s) ∧
    (∀ posters : List (List Char × List Char),
      (postersListHtml posters).count '<' = 6 * posters.length ∧
      (postersListHtml posters).count '>' = 6 * posters.length) := by
  have item_lt : ∀ t a : List Char, (posterItemHtml t a).count '<' = 6 := by
    intro t a
    unfold posterItemHtml
    simp only [List.count_append]
    rw [count_escapeHtml_lt t, count_escapeHtml_lt a]
    decide
  have item_gt : ∀ t a : List Char, (posterItemHtml t a).count '>' = 6 := by
    intro t a
    unfold posterItemHtml
    simp only [List.count_append]
    rw [count_escapeHtml_gt t, count_escapeHtml_gt a]
    decide
  constructor
  · intro s
    exact ⟨List.count_eq_zero.1 (count_escapeHtml_lt s),
           List.count_eq_zero.1 (count_escapeHtml_gt s)⟩
  · intro posters
    induction posters with
    | nil => exact ⟨rfl, rfl⟩
    | cons p rest ih =>
      obtain ⟨hih1, hih2⟩ := ih
      unfold postersListHtml at *
      simp only [List.map_cons, List.flatten_cons, List.count_append, List.length_cons]
      rw [hih1, hih2, item_lt p.1 p.2, item_gt p.1 p.2]
      omega

end Iscol
